import Mathlib

/-
Verification of pkg/codegen/pluggen.go (schema-to-TypeScript code generation).
Go strings and byte contents are modelled as lists of characters.
Paths produced by fs.WalkDir are clean, slash-separated, relative paths, and
the path helpers below model the corresponding Go filepath functions on that
domain (the Go functions additionally clean arbitrary inputs).
External collaborators (CUE instance loading, cuetsy body emission, the CUE
metadata parser) are opaque parameters, matching the spec's interface-boundary
treatment; their results are inputs to the embedded control flow.
-/

namespace Pluggen

/-- Go strings, modelled as lists of characters. -/
abbrev GoStr := List Char

/-- The string `sub` occurs contiguously inside `s`. -/
def occursIn (sub s : GoStr) : Prop := ∃ a b, s = a ++ sub ++ b

/-- Boolean test that `a` is an initial segment of `s`. -/
def isPre : GoStr → GoStr → Bool
  | [], _ => true
  | _ :: _, [] => false
  | c :: cs, d :: ds => c = d && isPre cs ds

/-- Boolean (decidable) version of `occursIn`. -/
def occursB (sub : GoStr) : GoStr → Bool
  | [] => isPre sub []
  | c :: rest => isPre sub (c :: rest) || occursB sub rest

/-- Boolean membership of a string in a list of strings. -/
def memB (x : GoStr) : List GoStr → Bool
  | [] => false
  | y :: ys => if x = y then true else memB x ys

/-- Index of the first occurrence of `c` in `l` (Go strings.Index for a
one-character needle), `none` when absent (Go returns -1). -/
def firstIdxOf (c : Char) : List Char → Option Nat
  | [] => none
  | d :: ds => if d = c then some 0 else (firstIdxOf c ds).map (· + 1)

/-- Index of the last occurrence of `c` in `l`, `none` when absent. -/
def lastIdxOf (c : Char) : List Char → Option Nat
  | [] => none
  | d :: ds =>
    match lastIdxOf c ds with
    | some i => some (i + 1)
    | none => if d = c then some 0 else none

/-- Go filepath.Dir on a clean slash-separated relative path: everything
before the last separator, or "." if there is none. -/
def goDir (p : GoStr) : GoStr :=
  match lastIdxOf '/' p with
  | some i => p.take i
  | none => ['.']

/-- Go filepath.Base on a clean slash-separated relative path. -/
def goBase (p : GoStr) : GoStr :=
  match lastIdxOf '/' p with
  | some i => p.drop (i + 1)
  | none => p

/-- Go filepath.Ext: the suffix of the name starting at its final dot,
empty when there is no dot. -/
def goExt (name : GoStr) : GoStr :=
  match lastIdxOf '.' name with
  | some i => name.drop i
  | none => []

/-- Go filepath.Join of two clean path elements (no trailing-separator or
dot cleanup is needed on the inputs this development joins). -/
def goJoin (a b : GoStr) : GoStr :=
  if a = [] then b
  else if b = [] then a
  else if a.getLast? = some '/' then a ++ b
  else a ++ '/' :: b

/-- Go strings.Split of a string on a one-character separator. -/
def goSplit (c : Char) : GoStr → List GoStr
  | [] => [[]]
  | d :: ds =>
    match goSplit c ds with
    | [] => [[]]
    | seg :: rest => if d = c then [] :: seg :: rest else (d :: seg) :: rest

/-- Go strings.Trim with a one-character cutset: remove all leading and
trailing occurrences of `c`. -/
def goTrim (c : Char) (s : GoStr) : GoStr :=
  ((s.dropWhile (· = c)).reverse.dropWhile (· = c)).reverse

/-- Go strings.Join. -/
def joinSep (sep : GoStr) : List GoStr → GoStr
  | [] => []
  | [x] => x
  | x :: y :: rest => x ++ sep ++ joinSep sep (y :: rest)

/-- Fuel-indexed core of Go strings.Replace with n = -1: scan left to right,
replacing each leftmost, non-overlapping occurrence of `old` by `new`. The
fuel is always at least the length of the subject string, which suffices
because each step consumes at least one character; Go's insertion behavior
for an empty `old` is not modelled (never used here). -/
def replaceAllAux (old new : List Char) : Nat → List Char → List Char
  | _, [] => []
  | 0, s => s
  | fuel + 1, c :: rest =>
    if isPre old (c :: rest) && !old.isEmpty then
      new ++ replaceAllAux old new fuel (rest.drop (old.length - 1))
    else
      c :: replaceAllAux old new fuel rest

/-- Go strings.Replace(s, old, new, -1) for non-empty `old`
(pluggen.go line 169 uses old = ".cue", new = ".gen.ts"). -/
def replaceAll (s old new : List Char) : List Char :=
  replaceAllAux old new s.length s

/-! ### Constants and tables from pluggen.go -/

/-- The only allow-listed import path with a TypeScript equivalent
(pluggen.go line 27). -/
def schemasPath : GoStr :=
  "github.com/grafana/grafana/packages/grafana-schema/src/schema".data

/-- The thema module path, allow-listed with an empty TS mapping
(pluggen.go line 33); also the schema library's own module identity
(line 260). -/
def themaPath : GoStr := "github.com/grafana/thema".data

/-- CUE import paths mapped to TS import paths (pluggen.go lines 32-35),
as an association list; an empty value means the import is dropped. -/
def importMap : List (GoStr × GoStr) :=
  [(themaPath, []), (schemasPath, "@grafana/schema".data)]

/-- Association-list lookup, modelling Go map indexing with ok-flag. -/
def mapLookup : List (GoStr × GoStr) → GoStr → Option GoStr
  | [], _ => none
  | (k, v) :: rest, q => if k = q then some v else mapLookup rest q

/-- The keys of the import mapping table. -/
def importMapKeys : List GoStr := importMap.map Prod.fst

/-- Hard-coded list of paths to skip (pluggen.go lines 39-49). -/
def skipPaths : List GoStr :=
  [ "public/app/plugins/panel/barchart/models.cue".data
  , "public/app/plugins/panel/canvas/models.cue".data
  , "public/app/plugins/panel/histogram/models.cue".data
  , "public/app/plugins/panel/heatmap-new/models.cue".data
  , "public/app/plugins/panel/candlestick/models.cue".data
  , "public/app/plugins/panel/state-timeline/models.cue".data
  , "public/app/plugins/panel/status-history/models.cue".data
  , "public/app/plugins/panel/table/models.cue".data
  , "public/app/plugins/panel/timeseries/models.cue".data ]

/-- The exclusion closure from CuetsifyPlugins (pluggen.go lines 64-72):
a path is excluded when it is in skipPaths or its immediate parent
directory is cue.mod. -/
def exclude (path : GoStr) : Bool :=
  if memB path skipPaths then true
  else decide (goDir path = "cue.mod".data)

/-! ### The directory walker (pluggen.go lines 84-96) -/

/-- A directory entry seen by fs.WalkDir: its slash-separated path, whether
it is a directory, and (for regular files) its byte content. -/
structure FileEntry where
  path : GoStr
  isDir : Bool
  content : GoStr := []
deriving DecidableEq

/-- The per-entry checks of the walker that do not depend on walk state
(pluggen.go line 92, without the seen-directory test): a regular file with
extension .cue that is not excluded. -/
def staticQ (e : FileEntry) : Bool :=
  !e.isDir && decide (goExt (goBase e.path) = ".cue".data) && !exclude e.path

/-- The full gate of the walker callback (pluggen.go line 92): an entry is
routed to a generation strategy iff it passes the static checks and its
directory has not been processed yet. -/
def shouldProcess (seen : List GoStr) (e : FileEntry) : Bool :=
  staticQ e && !memB (goDir e.path) seen

/-- One walker step's effect on the seen-directory set
(pluggen.go line 95). -/
def stepSeen (seen : List GoStr) (e : FileEntry) : List GoStr :=
  if shouldProcess seen e then goDir e.path :: seen else seen

/-- The seen-directory set after walking a list of entries in order. -/
def seenAfter (seen : List GoStr) (es : List FileEntry) : List GoStr :=
  es.foldl stepSeen seen

/-- For each entry, in walk order, whether the walker routes it to a
generation strategy. -/
def walkFlags (seen : List GoStr) : List FileEntry → List Bool
  | [] => []
  | e :: rest => shouldProcess seen e :: walkFlags (stepSeen seen e) rest

/-- The strategy switch of the walker (pluggen.go lines 101 and 114): the
versioned plugin strategy when the path contains public/app/plugins,
otherwise the generic default case. -/
inductive Strategy where
  | generic
  | versioned
deriving DecidableEq

/-- Which generation strategy a routed path is dispatched to. -/
def strategyOf (path : GoStr) : Strategy :=
  if occursB "public/app/plugins".data path then .versioned else .generic

/-! ### Import translation (pluggen.go lines 129-148 and 182-198) -/

/-- A parsed import declaration: optional alias (ast.ImportSpec.Name, `none`
for Go nil) and the quoted path literal (ast.ImportSpec.Path.Value, which
retains its surrounding double quotes). -/
structure ImportSpec where
  name : Option GoStr
  pathValue : GoStr
deriving DecidableEq

/-- A translated TypeScript import (pluggen.go lines 341-344). -/
structure tsImport where
  Ident : GoStr
  Pkg : GoStr
deriving DecidableEq

/-- Direct embedding of convertImport (pluggen.go lines 182-198). Note that
the no-alias branch splits the still-quoted Path.Value on '/' and writes the
final segment into Pkg, leaving Ident untouched. -/
def convertImport (im : ImportSpec) : tsImport :=
  let initTs : tsImport := { Ident := [], Pkg := (mapLookup importMap schemasPath).getD [] }
  if (im.name.getD []) ≠ [] then { initTs with Ident := im.name.getD [] }
  else
    let sl := goSplit '/' im.pathValue
    let final := sl.getLastD []
    match firstIdxOf ':' final with
    | some idx => { initTs with Pkg := final.drop idx }
    | none => { initTs with Pkg := final }

/-- The message of the disallowed-import error (pluggen.go lines 135-139),
with `keyOrder` the iteration order of the importMap keys (Go map iteration
order is unspecified, so it is a parameter). -/
def mkImportErr (filePath ip : GoStr) (keyOrder : List GoStr) : GoStr :=
  filePath ++ ": import \"".data ++ ip ++
  "\" not allowed, panel plugins may only import from:\n".data ++
  joinSep "\n".data (keyOrder.map (fun k => '\t' :: k)) ++ "\n".data

/-- The import loop of the versioned strategy (pluggen.go lines 129-148):
`iseen` is the dedup set keyed on the trimmed source path, `acc` the
translated imports collected so far (f.Imports). -/
def importLoopAux (filePath : GoStr) (keyOrder : List GoStr) :
    List ImportSpec → List GoStr → List tsImport → Except GoStr (List tsImport)
  | [], _, acc => .ok acc
  | im :: rest, iseen, acc =>
    let ip := goTrim '"' im.pathValue
    match mapLookup importMap ip with
    | none => .error (mkImportErr filePath ip keyOrder)
    | some m =>
      if m ≠ [] ∧ memB ip iseen = false then
        importLoopAux filePath keyOrder rest (ip :: iseen) (acc ++ [convertImport im])
      else
        importLoopAux filePath keyOrder rest iseen acc

/-- Import extraction for one file's parsed import section, starting from an
empty dedup set and no collected imports. -/
def processImports (filePath : GoStr) (keyOrder : List GoStr)
    (ims : List ImportSpec) : Except GoStr (List tsImport) :=
  importLoopAux filePath keyOrder ims [] []

/-- Spec-side dedup for the refinement statement of claim C6: keep the first
occurrence of each trimmed source import path, dropping later repeats. -/
def dedupFirst : List ImportSpec → List GoStr → List ImportSpec
  | [], _ => []
  | im :: rest, seen =>
    let ip := goTrim '"' im.pathValue
    if memB ip seen then dedupFirst rest seen
    else im :: dedupFirst rest (ip :: seen)

/-- An import is allow-listed with a non-empty target specifier. -/
def allowedNonempty (im : ImportSpec) : Bool :=
  match mapLookup importMap (goTrim '"' im.pathValue) with
  | some m => !m.isEmpty
  | none => false

/-! ### Output paths (pluggen.go line 169) -/

def dotCue : GoStr := ".cue".data

def genTsExt : GoStr := ".gen.ts".data

/-- The output-collector key for a processed schema file: the walk path with
every occurrence of ".cue" replaced by ".gen.ts", joined under the output
root (pluggen.go line 169). -/
def outKey (root path : GoStr) : GoStr :=
  goJoin root (replaceAll path dotCue genTsExt)

/-- The single output-collector entry written for one processed file:
its key and the rendered bytes. -/
def cuetsifyWrite (root path body : GoStr) : GoStr × GoStr :=
  (outKey root path, body)

/-! ### Generic strategy and loader tail (pluggen.go lines 101-107, 286-289) -/

/-- The outcome of a Go code path: a normal value, a returned error value,
or a runtime panic. -/
inductive GoOutcome (α : Type) where
  | ok (a : α)
  | err (e : GoStr)
  | panicked (m : GoStr)
deriving DecidableEq

/-- Whether an outcome is a returned error value (not a panic). -/
def isErrO {α : Type} : GoOutcome α → Bool
  | .err _ => true
  | _ => false

/-- The ambiguous-instance error message (pluggen.go line 105). -/
def moreThanOneInstanceMsg (path : GoStr) : GoStr :=
  path ++ ": resulted in more than one instance".data

/-- The generic (default) strategy head (pluggen.go lines 103-107): fail when
instance resolution yields more than one instance, otherwise build the first
instance; the empty list hits the unchecked index insts[0] and panics.
`buildInstance` stands for the opaque ctx.BuildInstance. -/
def genericStep {Inst Val : Type} (buildInstance : Inst → Val)
    (insts : List Inst) (path : GoStr) : GoOutcome Val :=
  if insts.length > 1 then .err (moreThanOneInstanceMsg path)
  else
    match insts with
    | [] => .panicked "runtime error: index out of range".data
    | i :: _ => .ok (buildInstance i)

/-- A build.Instance as far as the loader tail inspects it: its Err field. -/
structure BuildInst where
  err : Option GoStr
deriving DecidableEq

/-- The tail of loadInstancesWithThema (pluggen.go lines 286-291): index the
first resolved instance without a bounds check, then propagate its Err. -/
def loaderTakeFirst (insts : List BuildInst) : GoOutcome BuildInst :=
  match insts with
  | [] => .panicked "runtime error: index out of range".data
  | i :: _ =>
    match i.err with
    | some e => .err e
    | none => .ok i

/-! ### Module-aware loader overlay (pluggen.go lines 200-268) -/

/-- The reserved synthetic dependency path (pluggen.go line 200). -/
def themamodpath : GoStr := "cue.mod/pkg/github.com/grafana/thema".data

/-- The module metadata file path. -/
def modCuePath : GoStr := "cue.mod/module.cue".data

/-- Whether a path is absolute. -/
def isAbsPath : GoStr → Bool
  | [] => false
  | c :: _ => decide (c = '/')

/-- Embedding of toOverlay (pluggen.go lines 294-332): require an absolute
prefix, then insert every regular file of the tree at the prefix-joined
path. Thema's load.ToOverlay, called at pluggen.go lines 255-267, is not
part of this repository's sources; it is modelled from the spec's Overlay
Builder contract (spec section 4.1), which this same definition satisfies:
build(prefix, fileTree) fails unless prefix is absolute, walks every regular
file, and inserts it at prefix + path. The Go overlay map is modelled as an
association list; claims about it are key-containment claims. -/
def toOverlay (pre : GoStr) (vfs : List FileEntry) :
    Except GoStr (List (GoStr × GoStr)) :=
  if isAbsPath pre then
    .ok (vfs.filterMap fun f =>
      if f.isDir then none else some (goJoin pre f.path, f.content))
  else
    .error "must provide absolute path prefix when generating cue overlay".data

/-- Directories pruned by the metadata walk (pluggen.go line 216): the
cue.mod/gen and cue.mod/usr subtrees are skipped wholesale. -/
def underSkippedDir (p : GoStr) : Bool :=
  isPre "cue.mod/gen/".data p || decide (p = "cue.mod/gen".data) ||
  isPre "cue.mod/usr/".data p || decide (p = "cue.mod/usr".data)

/-- One step of the module-discovery walk (pluggen.go lines 206-244).
`parseMod` is the opaque CUE metadata parser (cuecontext compile plus
module-field lookup), returning the declared module identity. -/
def discoverStep (parseMod : GoStr → Except GoStr GoStr)
    (st : Except GoStr (Option GoStr)) (f : FileEntry) :
    Except GoStr (Option GoStr) :=
  match st with
  | .error e => .error e
  | .ok cur =>
    if underSkippedDir f.path then .ok cur
    else if f.isDir then
      if f.path = themamodpath then
        .error ("path already exists in modFS passed to InstancesWithThema, must be absent for dynamic dependency injection".data)
      else .ok cur
    else if f.path = modCuePath then
      match parseMod f.content with
      | .error e => .error e
      | .ok m =>
        if m = [] then
          .error "InstancesWithThema requires non-empty module name in modFS cue.mod/module.cue".data
        else .ok (some m)
    else .ok cur

/-- Module identity discovery (pluggen.go lines 204-251): walk the tree,
record the parsed module name from cue.mod/module.cue, and fail if the walk
errored or no metadata file was found. -/
def discoverModname (entries : List FileEntry)
    (parseMod : GoStr → Except GoStr GoStr) : Except GoStr GoStr :=
  match entries.foldl (discoverStep parseMod) (.ok none) with
  | .error e => .error e
  | .ok none => .error "cue.mod/module.cue did not exist".data
  | .ok (some m) => .ok m

/-- The overlay-building phase of loadInstancesWithThema (pluggen.go lines
249-268): discover the module identity M, overlay the whole input tree at
/M, then inject the library: its joint sources at /M when M is the thema
module itself, else its schema sources at /M/cue.mod/pkg/github.com/grafana/
thema. Returns the discovered identity and the overlay. -/
def loaderOverlay (entries : List FileEntry)
    (parseMod : GoStr → Except GoStr GoStr)
    (themaCueFS themaCueJointFS : List FileEntry) :
    Except GoStr (GoStr × List (GoStr × GoStr)) :=
  match discoverModname entries parseMod with
  | .error e => .error e
  | .ok modname =>
    match toOverlay (goJoin "/".data modname) entries with
    | .error e => .error e
    | .ok ov1 =>
      if modname = themaPath then
        match toOverlay (goJoin "/".data modname) themaCueJointFS with
        | .error e => .error e
        | .ok ov2 => .ok (modname, ov1 ++ ov2)
      else
        match toOverlay (goJoin (goJoin "/".data modname) themamodpath) themaCueFS with
        | .error e => .error e
        | .ok ov2 => .ok (modname, ov1 ++ ov2)

/-! ### The re-parse for import extraction (pluggen.go lines 124-130) -/

/-- A Go multi-value return (value, error); a nil value is `none`. -/
structure GoRet (α : Type) where
  val : Option α
  err : Option GoStr

/-- A parsed CUE file as far as the import loop inspects it. -/
structure ParsedFile where
  imports : List ImportSpec
deriving DecidableEq

/-- An opened file handle, identified by what can be read from it. -/
abbrev Handle := GoStr

/-- The re-open/re-parse step and subsequent import loop of the versioned
strategy (pluggen.go lines 126-148): both the Open error and the ParseFile
error are bound to the blank identifier, so only the value components flow
onward; a nil parse result would make the range over pf.Imports panic. -/
def importExtraction (openRet : GoRet Handle)
    (parseFile : Option Handle → GoRet ParsedFile)
    (filePath : GoStr) (keyOrder : List GoStr) : GoOutcome (List tsImport) :=
  match (parseFile openRet.val).val with
  | none => .panicked "runtime error: invalid memory address or nil pointer dereference".data
  | some pf =>
    match processImports filePath keyOrder pf.imports with
    | .error e => .err e
    | .ok l => .ok l

/-! ### Helper lemmas -/

theorem isPre_iff (a s : GoStr) : isPre a s = true ↔ ∃ t, s = a ++ t := by
  induction a generalizing s with
  | nil => simp [isPre]
  | cons c cs ih =>
    cases s with
    | nil => simp [isPre]
    | cons d ds =>
      simp only [isPre, Bool.and_eq_true, decide_eq_true_eq, ih]
      constructor
      · rintro ⟨rfl, t, rfl⟩
        exact ⟨t, rfl⟩
      · rintro ⟨t, h⟩
        rw [List.cons_append] at h
        injection h with h1 h2
        exact ⟨h1.symm, t, h2⟩

theorem occursB_of_isPre {sub s : GoStr} (h : isPre sub s = true) :
    occursB sub s = true := by
  cases s with
  | nil => simpa [occursB] using h
  | cons c rest => simp [occursB, h]

theorem occursB_iff (sub s : GoStr) : occursB sub s = true ↔ occursIn sub s := by
  constructor
  · intro h
    induction s with
    | nil =>
      simp only [occursB, isPre_iff] at h
      obtain ⟨t, ht⟩ := h
      rcases List.append_eq_nil.1 ht.symm with ⟨h1, h2⟩
      exact ⟨[], t, by simp [h1, h2]⟩
    | cons c rest ih =>
      simp only [occursB, Bool.or_eq_true] at h
      rcases h with h | h
      · obtain ⟨t, ht⟩ := (isPre_iff _ _).1 h
        exact ⟨[], t, by simp [ht]⟩
      · obtain ⟨a, b, hab⟩ := ih h
        exact ⟨c :: a, b, by simp [hab]⟩
  · rintro ⟨a, b, rfl⟩
    induction a with
    | nil =>
      apply occursB_of_isPre
      rw [isPre_iff]
      exact ⟨b, by simp⟩
    | cons c a' ih =>
      simp only [List.cons_append, occursB, Bool.or_eq_true]
      exact Or.inr ih

theorem occursIn_appL {k s : GoStr} (t : GoStr) (h : occursIn k s) :
    occursIn k (s ++ t) := by
  obtain ⟨a, b, rfl⟩ := h
  exact ⟨a, b ++ t, by simp⟩

theorem occursIn_appR {k t : GoStr} (s : GoStr) (h : occursIn k t) :
    occursIn k (s ++ t) := by
  obtain ⟨a, b, rfl⟩ := h
  exact ⟨s ++ a, b, by simp⟩

theorem occursIn_mid (k a b : GoStr) : occursIn k (a ++ k ++ b) := ⟨a, b, rfl⟩

theorem occursIn_single {c : Char} {s : GoStr} (h : c ∈ s) : occursIn [c] s := by
  induction s with
  | nil => cases h
  | cons d ds ih =>
    rcases List.mem_cons.1 h with rfl | h
    · exact ⟨[], ds, rfl⟩
    · exact occursIn_appR [d] (ih h)

theorem memB_iff (x : GoStr) (l : List GoStr) : memB x l = true ↔ x ∈ l := by
  induction l with
  | nil => simp [memB]
  | cons y ys ih =>
    by_cases h : x = y
    · subst h; simp [memB]
    · simp [memB, h, ih]

/-! ### Claim C1 (code bug evidence) -/

/-- Claim C1 states that an emitted Translated Import with no alias gets the
last path segment as its identifier and its package from the mapping table.
Evaluating the embedded convertImport at its failing input — an un-aliased
allow-listed schemas import — shows the code instead leaves the identifier
empty and overwrites the package specifier with the final segment of the
still-quoted path literal: the result is Ident = "" and Pkg = "schema\"",
whereas the claim requires Ident = "schema" and Pkg = "@grafana/schema". -/
theorem convertImport_no_alias_eval :
    convertImport ⟨none, "\"github.com/grafana/grafana/packages/grafana-schema/src/schema\"".data⟩
      = { Ident := [], Pkg := "schema\"".data } ∧
    ("schema".data : GoStr) ≠ [] ∧
    "schema\"".data ≠ (mapLookup importMap schemasPath).getD [] := by
  decide

/-! ### Claim C4 -/

/-- Counterexample to claim C4: a .cue file nested below cue.mod (here
cue.mod/pkg/x/y.cue) is not excluded and passes the walker gate, so it is
routed to a generation strategy, contradicting the claim that no file
anywhere under cue.mod is ever routed. -/
theorem nested_cueMod_file_routed :
    shouldProcess [] ⟨"cue.mod/pkg/x/y.cue".data, false, []⟩ = true ∧
    exclude "cue.mod/pkg/x/y.cue".data = false ∧
    strategyOf "cue.mod/pkg/x/y.cue".data = .generic := by
  decide

/-- Claim C4 as amended: only files whose immediate parent directory is
cue.mod are shielded from the generation strategies — for any walker state,
an entry whose containing directory equals cue.mod is never routed. Files in
nested subdirectories of cue.mod are not covered by this exclusion. -/
theorem direct_cueMod_child_never_routed (seen : List GoStr) (e : FileEntry)
    (h : goDir e.path = "cue.mod".data) : shouldProcess seen e = false := by
  have hex : exclude e.path = true := by
    unfold exclude
    split
    · rfl
    · simp [h]
  simp [shouldProcess, staticQ, hex]

/-- Witness for the amended C4 theorem at the concrete metadata file
cue.mod/module.cue. -/
theorem direct_cueMod_child_witness :
    shouldProcess [] ⟨"cue.mod/module.cue".data, false, []⟩ = false :=
  direct_cueMod_child_never_routed [] ⟨"cue.mod/module.cue".data, false, []⟩ (by decide)

/-! ### Claim C5 -/

/-- Counterexample to claim C5: at a concrete input where re-opening the
schema file fails (Open returns a nil file and an error) and re-parsing also
reports an error alongside a partial parse result, the import-extraction
step returns a normal empty result — the errors are discarded rather than
propagated, so the run is not aborted. -/
theorem reparse_error_swallowed :
    importExtraction ⟨none, some "open failed".data⟩
        (fun _ => ⟨some ⟨[]⟩, some "parse failed".data⟩)
        "p.cue".data importMapKeys = .ok [] ∧
    isErrO (importExtraction ⟨none, some "open failed".data⟩
        (fun _ => ⟨some ⟨[]⟩, some "parse failed".data⟩)
        "p.cue".data importMapKeys) = false := by
  decide

/-- Claim C5 as amended: the error return values of the re-open and re-parse
calls are bound to the blank identifier and ignored — import extraction
depends only on the value components of both calls, so replacing either
error by nil never changes the outcome (a nil parse value panics instead of
returning an error). -/
theorem reparse_ignores_errors (openVal : Option Handle) (openErr : Option GoStr)
    (parseFile : Option Handle → GoRet ParsedFile)
    (filePath : GoStr) (keyOrder : List GoStr) :
    importExtraction ⟨openVal, openErr⟩ parseFile filePath keyOrder =
      importExtraction ⟨openVal, none⟩
        (fun h => ⟨(parseFile h).val, none⟩) filePath keyOrder := rfl

/-! ### Claim C9 -/

/-- Claim C9: under the generic strategy, when instance resolution for a
directory yields more than one instance, generation fails with an error
whose message contains the phrase "more than one instance" and names the
directory (the message embeds the representative file's path, of which the
directory is the parent; for a top-level file the directory "." likewise
occurs in the path's ".cue" suffix). -/
theorem genericStep_moreThanOne {Inst Val : Type} (buildInstance : Inst → Val)
    (insts : List Inst) (path : GoStr)
    (hlen : insts.length > 1) (hext : goExt (goBase path) = ".cue".data) :
    genericStep buildInstance insts path = .err (moreThanOneInstanceMsg path) ∧
    occursIn "more than one instance".data (moreThanOneInstanceMsg path) ∧
    occursIn (goDir path) (moreThanOneInstanceMsg path) := by
  refine ⟨?_, ?_, ?_⟩
  · unfold genericStep
    rw [if_pos hlen]
  · have : (": resulted in more than one instance".data : GoStr) =
        ": resulted in ".data ++ "more than one instance".data ++ [] := by decide
    unfold moreThanOneInstanceMsg
    rw [this]
    exact occursIn_appR path (occursIn_mid _ _ _)
  · unfold moreThanOneInstanceMsg goDir
    cases hidx : lastIdxOf '/' path with
    | some i =>
      refine ⟨[], path.drop i ++ ": resulted in more than one instance".data, ?_⟩
      simp only [List.nil_append, ← List.append_assoc, List.take_append_drop]
    | none =>
      apply occursIn_appL
      apply occursIn_single
      have hbase : goBase path = path := by unfold goBase; rw [hidx]
      rw [hbase] at hext
      unfold goExt at hext
      cases hdot : lastIdxOf '.' path with
      | none =>
        rw [hdot] at hext
        simp at hext
      | some j =>
        rw [hdot] at hext
        simp only [] at hext
        have hmem : '.' ∈ path.drop j := by
          rw [hext]; decide
        exact (List.drop_sublist j path).subset hmem

/-- Witness for the C9 theorem at a concrete two-instance resolution for a
top-level schema file. -/
theorem genericStep_moreThanOne_witness :
    genericStep (fun n : Nat => n) [0, 1] "m.cue".data =
        .err (moreThanOneInstanceMsg "m.cue".data) ∧
    occursIn "more than one instance".data (moreThanOneInstanceMsg "m.cue".data) ∧
    occursIn (goDir "m.cue".data) (moreThanOneInstanceMsg "m.cue".data) :=
  genericStep_moreThanOne (fun n : Nat => n) [0, 1] "m.cue".data (by decide) (by decide)

/-! ### Claim C10 -/

/-- Claim C10: when instance resolution yields zero instances, both the
generic strategy and the module-aware loader tail index the first element of
the empty instance list without a bounds check: in this total embedding both
code paths reach the out-of-range branch (a runtime panic), and neither
returns an error value for the empty case. -/
theorem emptyInstances_outOfRange {Inst Val : Type} (buildInstance : Inst → Val)
    (path : GoStr) :
    genericStep buildInstance ([] : List Inst) path =
        .panicked "runtime error: index out of range".data ∧
    loaderTakeFirst [] = .panicked "runtime error: index out of range".data ∧
    isErrO (genericStep buildInstance ([] : List Inst) path) = false ∧
    isErrO (loaderTakeFirst []) = false := by
  refine ⟨?_, rfl, ?_, rfl⟩ <;> simp [genericStep, isErrO]

/-! ### Claims C6 and C3: the import loop -/

theorem importLoopAux_ok_char (filePath : GoStr) (keyOrder : List GoStr)
    (ims : List ImportSpec) :
    ∀ (iseen : List GoStr) (acc l : List tsImport),
    importLoopAux filePath keyOrder ims iseen acc = .ok l →
    l = acc ++ (dedupFirst (ims.filter (fun im => allowedNonempty im)) iseen).map convertImport := by
  induction ims with
  | nil =>
    intro iseen acc l h
    simp only [importLoopAux] at h
    cases h
    simp [dedupFirst]
  | cons im rest ih =>
    intro iseen acc l h
    simp only [importLoopAux] at h
    split at h
    next hm => cases h
    next m hm =>
      have hall : allowedNonempty im = !m.isEmpty := by
        unfold allowedNonempty
        rw [hm]
      by_cases hc : m ≠ [] ∧ memB (goTrim '"' im.pathValue) iseen = false
      · rw [if_pos hc] at h
        have hrec := ih _ _ _ h
        have hup : allowedNonempty im = true := by
          rw [hall]
          simp [List.isEmpty_iff, hc.1]
        rw [List.filter_cons_of_pos hup]
        simp only [dedupFirst, hc.2]
        simp only [Bool.false_eq_true, if_false, List.map_cons]
        rw [hrec]
        simp
      · rw [if_neg hc] at h
        have hrec := ih _ _ _ h
        by_cases hemp : m = []
        · have hdown : allowedNonempty im = false := by
            rw [hall, hemp]
            simp
          rw [List.filter_cons_of_neg (by simp [hdown])]
          exact hrec
        · have hseen : memB (goTrim '"' im.pathValue) iseen = true := by
            rcases Bool.eq_false_or_eq_true (memB (goTrim '"' im.pathValue) iseen) with h1 | h0
            · exact h1
            · exact absurd ⟨hemp, h0⟩ hc
          have hup : allowedNonempty im = true := by
            rw [hall]
            simp [List.isEmpty_iff, hemp]
          rw [List.filter_cons_of_pos hup]
          simp only [dedupFirst, hseen, if_true]
          exact hrec

/-- Claim C6: within one output unit's import loop, every allow-listed
source import with an empty target specifier is dropped (no Translated
Import is produced for it), and repeats of the same source path contribute
only their first occurrence: a successful run of the embedded import loop
returns exactly the translation of the input records filtered to
allow-listed records with non-empty specifiers and deduplicated on the
trimmed source path, keeping first occurrences. -/
theorem processImports_drop_and_dedup (filePath : GoStr) (keyOrder : List GoStr)
    (ims : List ImportSpec) (l : List tsImport)
    (h : processImports filePath keyOrder ims = .ok l) :
    l = (dedupFirst (ims.filter (fun im => allowedNonempty im)) []).map convertImport := by
  simpa using importLoopAux_ok_char filePath keyOrder ims [] [] l h

/-- Concrete import section for the C6 witness: a thema import (allow-listed,
empty specifier), an aliased schemas import, and a repeated un-aliased
schemas import. -/
def c6Records : List ImportSpec :=
  [ ⟨none, "\"github.com/grafana/thema\"".data⟩
  , ⟨some "ui".data, "\"github.com/grafana/grafana/packages/grafana-schema/src/schema\"".data⟩
  , ⟨none, "\"github.com/grafana/grafana/packages/grafana-schema/src/schema\"".data⟩ ]

/-- Witness for the C6 theorem: on c6Records the loop succeeds with exactly
one translated import (the thema import is dropped, the duplicated schemas
path is reduced to its first, aliased occurrence). -/
theorem processImports_drop_and_dedup_witness :
    ([{ Ident := "ui".data, Pkg := "@grafana/schema".data }] : List tsImport) =
      (dedupFirst (c6Records.filter (fun im => allowedNonempty im)) []).map convertImport :=
  processImports_drop_and_dedup "p.cue".data importMapKeys c6Records
    [{ Ident := "ui".data, Pkg := "@grafana/schema".data }] (by rfl)

theorem importLoopAux_unknown_err (filePath : GoStr) (keyOrder : List GoStr)
    (pre : List ImportSpec) (im : ImportSpec) (post : List ImportSpec)
    (hunk : mapLookup importMap (goTrim '"' im.pathValue) = none) :
    ∀ (iseen : List GoStr) (acc : List tsImport),
    (∀ x ∈ pre, (mapLookup importMap (goTrim '"' x.pathValue)).isSome = true) →
    importLoopAux filePath keyOrder (pre ++ im :: post) iseen acc =
      .error (mkImportErr filePath (goTrim '"' im.pathValue) keyOrder) := by
  induction pre with
  | nil =>
    intro iseen acc _
    simp only [List.nil_append, importLoopAux]
    rw [hunk]
  | cons x pre' ih =>
    intro iseen acc hknown
    simp only [List.cons_append, importLoopAux]
    have hknown' : ∀ y ∈ pre', (mapLookup importMap (goTrim '"' y.pathValue)).isSome = true :=
      fun y hy => hknown y (List.mem_cons_of_mem x hy)
    split
    next hm =>
      have hx := hknown x (List.mem_cons_self x pre')
      rw [hm] at hx
      simp at hx
    next m hm =>
      split
      · exact ih _ _ hknown'
      · exact ih _ _ hknown'

theorem occursIn_joinTab (sep : GoStr) (l : List GoStr) (k : GoStr) (h : k ∈ l) :
    occursIn k (joinSep sep (l.map (fun s => '\t' :: s))) := by
  induction l with
  | nil => cases h
  | cons x xs ih =>
    cases xs with
    | nil =>
      rcases List.mem_cons.1 h with rfl | h0
      · exact ⟨['\t'], [], by simp [joinSep]⟩
      · cases h0
    | cons y rest =>
      simp only [List.map_cons, joinSep]
      rcases List.mem_cons.1 h with rfl | h0
      · exact occursIn_appL _ (occursIn_appL _ ⟨['\t'], [], by simp⟩)
      · exact occursIn_appR _ (ih h0)

/-- Claim C3: when the import loop reaches an import whose trimmed source
path is not a key of the import mapping table (all earlier records being
allow-listed, so this is the offending import), extraction fails, and the
error message names the offending path and contains every allow-listed
source path at least once — for any iteration order of the table's keys,
since Go map iteration order is unspecified. -/
theorem disallowedImport_error (filePath : GoStr) (keyOrder : List GoStr)
    (pre : List ImportSpec) (im : ImportSpec) (post : List ImportSpec)
    (hfirst : ∀ x ∈ pre, (mapLookup importMap (goTrim '"' x.pathValue)).isSome = true)
    (hunk : mapLookup importMap (goTrim '"' im.pathValue) = none)
    (hperm : keyOrder.Perm importMapKeys) :
    processImports filePath keyOrder (pre ++ im :: post) =
      .error (mkImportErr filePath (goTrim '"' im.pathValue) keyOrder) ∧
    occursIn (goTrim '"' im.pathValue)
      (mkImportErr filePath (goTrim '"' im.pathValue) keyOrder) ∧
    ∀ k ∈ importMapKeys,
      occursIn k (mkImportErr filePath (goTrim '"' im.pathValue) keyOrder) := by
  refine ⟨importLoopAux_unknown_err filePath keyOrder pre im post hunk [] [] hfirst, ?_, ?_⟩
  · unfold mkImportErr
    refine ⟨filePath ++ ": import \"".data,
      "\" not allowed, panel plugins may only import from:\n".data ++
        joinSep "\n".data (keyOrder.map (fun s => '\t' :: s)) ++ "\n".data, ?_⟩
    simp [List.append_assoc]
  · intro k hk
    have hmem : k ∈ keyOrder := hperm.mem_iff.2 hk
    have hj := occursIn_joinTab "\n".data keyOrder k hmem
    unfold mkImportErr
    exact occursIn_appL _ (occursIn_appR _ hj)

/-- Witness for the C3 theorem: a known thema import followed by the
unlisted path some/unlisted/pkg, with the table's own key order. -/
theorem disallowedImport_error_witness :
    processImports "p.cue".data importMapKeys
        ([⟨none, "\"github.com/grafana/thema\"".data⟩] ++
          ⟨none, "\"some/unlisted/pkg\"".data⟩ :: []) =
      .error (mkImportErr "p.cue".data
        (goTrim '"' "\"some/unlisted/pkg\"".data) importMapKeys) ∧
    occursIn (goTrim '"' "\"some/unlisted/pkg\"".data)
      (mkImportErr "p.cue".data (goTrim '"' "\"some/unlisted/pkg\"".data) importMapKeys) ∧
    ∀ k ∈ importMapKeys,
      occursIn k (mkImportErr "p.cue".data
        (goTrim '"' "\"some/unlisted/pkg\"".data) importMapKeys) :=
  disallowedImport_error "p.cue".data importMapKeys
    [⟨none, "\"github.com/grafana/thema\"".data⟩]
    ⟨none, "\"some/unlisted/pkg\"".data⟩ []
    (by decide) (by decide) (List.Perm.refl _)

/-! ### Claim C7: output paths -/

theorem replaceAllAux_nil (old new : List Char) (fuel : Nat) :
    replaceAllAux old new fuel [] = [] := by
  cases fuel <;> rfl

theorem replaceAllAux_ext (stem : GoStr) :
    ∀ fuel : Nat, stem.length + 4 ≤ fuel →
    occursB dotCue (stem ++ ".cu".data) = false →
    replaceAllAux dotCue genTsExt fuel (stem ++ dotCue) = stem ++ genTsExt := by
  induction stem with
  | nil =>
    intro fuel hfuel _
    obtain ⟨f, rfl⟩ : ∃ f, fuel = f + 1 := ⟨fuel - 1, by omega⟩
    show replaceAllAux dotCue genTsExt (f + 1) ('.' :: "cue".data) = [] ++ genTsExt
    rw [replaceAllAux]
    have hcond : (isPre dotCue ('.' :: "cue".data) && !dotCue.isEmpty) = true := by decide
    rw [hcond]
    simp only [if_true]
    have : ("cue".data).drop (dotCue.length - 1) = [] := by decide
    rw [this, replaceAllAux_nil]
    simp
  | cons c stem' ih =>
    intro fuel hfuel hocc
    obtain ⟨f, rfl⟩ : ∃ f, fuel = f + 1 := ⟨fuel - 1, by omega⟩
    have hnocc : ¬ occursIn dotCue ((c :: stem') ++ ".cu".data) := by
      intro hc
      rw [← occursB_iff] at hc
      rw [hocc] at hc
      cases hc
    have hnp : isPre dotCue (c :: (stem' ++ dotCue)) = false := by
      rcases Bool.eq_false_or_eq_true (isPre dotCue (c :: (stem' ++ dotCue))) with h1 | h1
      case inr => exact h1
      case inl =>
        exfalso
        obtain ⟨t, ht⟩ := (isPre_iff _ _).1 h1
        have hlen : t.length = stem'.length + 1 := by
          have := congrArg List.length ht
          simp [dotCue] at this
          omega
        rcases List.eq_nil_or_concat t with rfl | ⟨t0, e0, rfl⟩
        · simp at hlen
        · rw [List.concat_eq_append] at ht
          have ht' : ((c :: stem') ++ ".cu".data) ++ ['e'] = (dotCue ++ t0) ++ [e0] := by
            have hsplit : (dotCue : GoStr) = ".cu".data ++ ['e'] := by decide
            calc ((c :: stem') ++ ".cu".data) ++ ['e']
                = c :: (stem' ++ dotCue) := by simp [hsplit]
              _ = dotCue ++ (t0 ++ [e0]) := ht
              _ = (dotCue ++ t0) ++ [e0] := by simp
          have hinj := List.append_inj' ht' (by simp)
          exact hnocc ⟨[], t0, by simp [hinj.1]⟩
    show replaceAllAux dotCue genTsExt (f + 1) (c :: (stem' ++ dotCue)) =
      (c :: stem') ++ genTsExt
    rw [replaceAllAux, hnp]
    simp only [Bool.false_and, if_false]
    have hocc' : occursB dotCue (stem' ++ ".cu".data) = false := by
      have : occursB dotCue (c :: (stem' ++ ".cu".data)) = false := by
        simpa using hocc
      simp only [occursB, Bool.or_eq_false_iff] at this
      exact this.2
    rw [ih f (by simp at hfuel ⊢; omega) hocc']
    simp

/-- Counterexample to claim C7: for the qualifying schema file a.cue/b.cue
(a .cue file inside a directory whose name also ends in ".cue"), the
output-collector key replaces both occurrences of ".cue", not only the
extension, so something other than the extension is changed. -/
theorem outKey_replaces_all_occurrences :
    outKey "/out".data "a.cue/b.cue".data = "/out/a.gen.ts/b.gen.ts".data ∧
    "/out/a.gen.ts/b.gen.ts".data ≠ "/out/a.cue/b.gen.ts".data := by
  decide

/-- Claim C7 as amended: each processed schema file contributes exactly one
output-collector entry, keyed by the file's walk path with every occurrence
of ".cue" replaced by ".gen.ts", rooted under the caller-supplied output
root; when ".cue" occurs in the path only as the final extension (the common
case) this coincides with the claimed extension replacement, proved here:
if ".cue" does not occur in stem ++ ".cu" (which rules out occurrences
inside the stem and straddling the boundary), the entry for stem ++ ".cue"
is keyed at root-joined stem ++ ".gen.ts" with the rendered bytes. -/
theorem cuetsifyWrite_extension_replacement (root stem body : GoStr)
    (hocc : occursB dotCue (stem ++ ".cu".data) = false) :
    cuetsifyWrite root (stem ++ dotCue) body =
      (goJoin root (stem ++ genTsExt), body) := by
  unfold cuetsifyWrite outKey replaceAll
  rw [replaceAllAux_ext stem (stem ++ dotCue).length (by simp [dotCue]) hocc]

/-- Witness for the amended C7 theorem at the schema file x/models.cue under
the output root /out. -/
theorem cuetsifyWrite_extension_replacement_witness :
    cuetsifyWrite "/out".data ("x/models".data ++ dotCue) "body".data =
      (goJoin "/out".data ("x/models".data ++ genTsExt), "body".data) :=
  cuetsifyWrite_extension_replacement "/out".data "x/models".data "body".data (by decide)

/-! ### Claim C8: one representative file per directory -/

theorem walkFlags_get_at (e : FileEntry) (ys : List FileEntry) :
    ∀ (xs : List FileEntry) (s : List GoStr),
    (walkFlags s (xs ++ e :: ys)).get? xs.length =
      some (shouldProcess (seenAfter s xs) e) := by
  intro xs
  induction xs with
  | nil => intro s; rfl
  | cons x xs' ih =>
    intro s
    simp only [List.cons_append, walkFlags, List.length_cons, List.get?]
    exact ih (stepSeen s x)

theorem seenAfter_mono {d : GoStr} (xs : List FileEntry) :
    ∀ s : List GoStr, d ∈ s → d ∈ seenAfter s xs := by
  induction xs with
  | nil => intro s h; exact h
  | cons x xs' ih =>
    intro s h
    show d ∈ seenAfter (stepSeen s x) xs'
    apply ih
    unfold stepSeen
    split
    · exact List.mem_cons_of_mem _ h
    · exact h

theorem seenAfter_marks {p : FileEntry} (hp : staticQ p = true)
    (xs : List FileEntry) (s : List GoStr) :
    goDir p.path ∈ seenAfter s (p :: xs) := by
  show goDir p.path ∈ seenAfter (stepSeen s p) xs
  apply seenAfter_mono
  unfold stepSeen
  split
  next => exact List.mem_cons_self _ _
  next hnp =>
    have hsp : shouldProcess s p = false := Bool.eq_false_iff.2 hnp
    unfold shouldProcess at hsp
    rw [hp] at hsp
    simp at hsp
    exact (memB_iff _ _).1 hsp

theorem seenAfter_fresh {d : GoStr} (xs : List FileEntry)
    (hxs : ∀ r ∈ xs, staticQ r = true → goDir r.path ≠ d) :
    ∀ s : List GoStr, d ∉ s → d ∉ seenAfter s xs := by
  induction xs with
  | nil => intro s h; exact h
  | cons x xs' ih =>
    intro s h
    show d ∉ seenAfter (stepSeen s x) xs'
    apply ih (fun r hr => hxs r (List.mem_cons_of_mem x hr))
    unfold stepSeen
    split
    next hsp =>
      intro hmem
      rcases List.mem_cons.1 hmem with heq | hmem'
      · have hstat : staticQ x = true := by
          unfold shouldProcess at hsp
          rw [Bool.and_eq_true] at hsp
          exact hsp.1
        exact hxs x (List.mem_cons_self x xs') hstat heq.symm
      · exact h hmem'
    next => exact h

/-- Claim C8: in walk order, the first qualifying schema file of a directory
is routed to a generation strategy, and every later qualifying file in the
same directory is skipped; and since the embedded generation pass is a pure
function of the walked entries, re-running it on unchanged input yields an
identical (byte-identical) result. Here p is the first qualifying file of
its directory (nothing qualifying in `pre` shares it) and q is any later
qualifying file of the same directory. -/
theorem walker_first_file_per_dir (pre mid post : List FileEntry) (p q : FileEntry)
    (hp : staticQ p = true) (hq : staticQ q = true)
    (hd : goDir p.path = goDir q.path)
    (hfresh : ∀ r ∈ pre, staticQ r = true → goDir r.path ≠ goDir p.path) :
    (walkFlags [] (pre ++ p :: (mid ++ q :: post))).get? pre.length = some true ∧
    (walkFlags [] (pre ++ p :: (mid ++ q :: post))).get? (pre.length + 1 + mid.length) =
      some false ∧
    walkFlags [] (pre ++ p :: (mid ++ q :: post)) =
      walkFlags [] (pre ++ p :: (mid ++ q :: post)) := by
  refine ⟨?_, ?_, rfl⟩
  · rw [walkFlags_get_at p (mid ++ q :: post) pre []]
    have hnot : goDir p.path ∉ seenAfter [] pre :=
      seenAfter_fresh pre hfresh [] (List.not_mem_nil _)
    have hmb : memB (goDir p.path) (seenAfter [] pre) = false :=
      Bool.eq_false_iff.2 (fun h1 => hnot ((memB_iff _ _).1 h1))
    unfold shouldProcess
    rw [hp, hmb]
    rfl
  · have hsplit : pre ++ p :: (mid ++ q :: post) = (pre ++ p :: mid) ++ q :: post := by
      simp
    have hidx : pre.length + 1 + mid.length = (pre ++ p :: mid).length := by
      simp
      omega
    rw [hsplit, hidx, walkFlags_get_at q post (pre ++ p :: mid) []]
    have hmem : goDir q.path ∈ seenAfter [] (pre ++ p :: mid) := by
      rw [← hd, seenAfter, List.foldl_append]
      exact seenAfter_marks hp mid (seenAfter [] pre)
    have hmb : memB (goDir q.path) (seenAfter [] (pre ++ p :: mid)) = true :=
      (memB_iff _ _).2 hmem
    unfold shouldProcess
    rw [hmb]
    simp

/-- Witness for the C8 theorem: the directory a holds the two qualifying
files a/x.cue and a/y.cue; the first is routed, the second skipped. -/
theorem walker_first_file_per_dir_witness :
    (walkFlags [] ([] ++ ⟨"a/x.cue".data, false, []⟩ ::
        ([] ++ ⟨"a/y.cue".data, false, []⟩ :: []))).get? 0 = some true ∧
    (walkFlags [] ([] ++ ⟨"a/x.cue".data, false, []⟩ ::
        ([] ++ ⟨"a/y.cue".data, false, []⟩ :: []))).get? 1 = some false ∧
    walkFlags [] ([] ++ ⟨"a/x.cue".data, false, []⟩ ::
        ([] ++ ⟨"a/y.cue".data, false, []⟩ :: [])) =
      walkFlags [] ([] ++ ⟨"a/x.cue".data, false, []⟩ ::
        ([] ++ ⟨"a/y.cue".data, false, []⟩ :: [])) :=
  walker_first_file_per_dir [] [] [] ⟨"a/x.cue".data, false, []⟩ ⟨"a/y.cue".data, false, []⟩
    (by decide) (by decide) (by decide) (fun r hr => absurd hr (List.not_mem_nil r))

/-! ### Claim C2: the module-aware loader's overlay -/

theorem isAbs_join_root (x : GoStr) : isAbsPath (goJoin "/".data x) = true := by
  unfold goJoin
  split
  next h => exact absurd h (by decide)
  next =>
    split
    next => rfl
    next =>
      split
      next => rfl
      next h => exact absurd (by decide) h

theorem isAbs_goJoin {a : GoStr} (b : GoStr) (h : isAbsPath a = true) :
    isAbsPath (goJoin a b) = true := by
  cases a with
  | nil => exact absurd h (by decide)
  | cons c a' =>
    have hc : c = '/' := by
      unfold isAbsPath at h
      exact of_decide_eq_true h
    unfold goJoin
    split
    next heq => cases heq
    next =>
      split
      next => exact h
      next =>
        split
        next => simp [isAbsPath, hc]
        next => simp [isAbsPath, hc]

theorem toOverlay_abs (pre : GoStr) (vfs : List FileEntry)
    (h : isAbsPath pre = true) :
    toOverlay pre vfs = .ok (vfs.filterMap fun f =>
      if f.isDir then none else some (goJoin pre f.path, f.content)) := by
  unfold toOverlay
  rw [if_pos h]

theorem mem_overlay_keys (pre : GoStr) (fs : List FileEntry) (f : FileEntry)
    (hf : f ∈ fs) (hdir : f.isDir = false) :
    goJoin pre f.path ∈ (fs.filterMap fun g =>
      if g.isDir then none else some (goJoin pre g.path, g.content)).map Prod.fst := by
  apply List.mem_map.2
  refine ⟨(goJoin pre f.path, f.content), ?_, rfl⟩
  apply List.mem_filterMap.2
  exact ⟨f, hf, by rw [hdir]; simp⟩

/-- Claim C2: when the module-aware loader succeeds with discovered module
identity M and overlay ov, the overlay contains every regular file of the
input tree keyed at /M/<relative path>; if M is not the schema library's own
module identity, it additionally contains the library's schema files under
/M/cue.mod/pkg/github.com/grafana/thema, and if M is the library's own
identity, the library's joint schema sources are overlaid at /M itself. -/
theorem loaderOverlay_contents (entries : List FileEntry)
    (parseMod : GoStr → Except GoStr GoStr)
    (themaCueFS themaCueJointFS : List FileEntry)
    (M : GoStr) (ov : List (GoStr × GoStr))
    (h : loaderOverlay entries parseMod themaCueFS themaCueJointFS = .ok (M, ov)) :
    (∀ f ∈ entries, f.isDir = false →
      goJoin (goJoin "/".data M) f.path ∈ ov.map Prod.fst) ∧
    (M ≠ themaPath → ∀ f ∈ themaCueFS, f.isDir = false →
      goJoin (goJoin (goJoin "/".data M) themamodpath) f.path ∈ ov.map Prod.fst) ∧
    (M = themaPath → ∀ f ∈ themaCueJointFS, f.isDir = false →
      goJoin (goJoin "/".data M) f.path ∈ ov.map Prod.fst) := by
  unfold loaderOverlay at h
  split at h
  next => cases h
  next modname hdm =>
    split at h
    next e hov =>
      rw [toOverlay_abs _ _ (isAbs_join_root modname)] at hov
      cases hov
    next ov1 hov =>
      rw [toOverlay_abs _ _ (isAbs_join_root modname)] at hov
      injection hov with hov1
      by_cases hmod : modname = themaPath
      · rw [if_pos hmod] at h
        split at h
        next e hj =>
          rw [toOverlay_abs _ _ (isAbs_join_root modname)] at hj
          cases hj
        next ov2 hj =>
          rw [toOverlay_abs _ _ (isAbs_join_root modname)] at hj
          injection hj with hov2
          injection h with hpair
          rw [Prod.mk.injEq] at hpair
          obtain ⟨hM, hOv⟩ := hpair
          subst hM
          subst hOv
          refine ⟨?_, ?_, ?_⟩
          · intro f hf hdir
            rw [List.map_append]
            refine List.mem_append_left _ ?_
            rw [← hov1]
            exact mem_overlay_keys _ entries f hf hdir
          · intro hne
            exact absurd hmod hne
          · intro _ f hf hdir
            rw [List.map_append]
            refine List.mem_append_right _ ?_
            rw [← hov2]
            exact mem_overlay_keys _ themaCueJointFS f hf hdir
      · rw [if_neg hmod] at h
        split at h
        next e hj =>
          rw [toOverlay_abs _ _ (isAbs_goJoin _ (isAbs_join_root modname))] at hj
          cases hj
        next ov2 hj =>
          rw [toOverlay_abs _ _ (isAbs_goJoin _ (isAbs_join_root modname))] at hj
          injection hj with hov2
          injection h with hpair
          rw [Prod.mk.injEq] at hpair
          obtain ⟨hM, hOv⟩ := hpair
          subst hM
          subst hOv
          refine ⟨?_, ?_, ?_⟩
          · intro f hf hdir
            rw [List.map_append]
            refine List.mem_append_left _ ?_
            rw [← hov1]
            exact mem_overlay_keys _ entries f hf hdir
          · intro _ f hf hdir
            rw [List.map_append]
            refine List.mem_append_right _ ?_
            rw [← hov2]
            exact mem_overlay_keys _ themaCueFS f hf hdir
          · intro heq
            exact absurd heq hmod

/-- Concrete input tree for the C2 witness: a module metadata file and one
schema file. -/
def c2Entries : List FileEntry :=
  [ ⟨"cue.mod".data, true, []⟩
  , ⟨"cue.mod/module.cue".data, false, "module".data⟩
  , ⟨"x.cue".data, false, "content".data⟩ ]

/-- Concrete metadata parser stub for the C2 witness, declaring the module
identity example.com/m. -/
def c2Parse : GoStr → Except GoStr GoStr := fun _ => .ok "example.com/m".data

/-- Concrete library schema tree for the C2 witness. -/
def c2ThemaFS : List FileEntry := [⟨"lineage.cue".data, false, "lc".data⟩]

/-- The overlay the loader builds for the C2 witness inputs. -/
def c2Ov : List (GoStr × GoStr) :=
  (c2Entries.filterMap fun f =>
    if f.isDir then none
    else some (goJoin (goJoin "/".data "example.com/m".data) f.path, f.content)) ++
  (c2ThemaFS.filterMap fun f =>
    if f.isDir then none
    else some (goJoin (goJoin (goJoin "/".data "example.com/m".data) themamodpath) f.path,
      f.content))

/-- Witness for the C2 theorem: on the concrete tree the loader succeeds
with identity example.com/m, the input file x.cue is keyed under the module
root, and the library file lineage.cue is keyed under the synthetic
dependency path. -/
theorem loaderOverlay_contents_witness :
    goJoin (goJoin "/".data "example.com/m".data) "x.cue".data ∈ c2Ov.map Prod.fst ∧
    goJoin (goJoin (goJoin "/".data "example.com/m".data) themamodpath) "lineage.cue".data ∈
      c2Ov.map Prod.fst := by
  have h := loaderOverlay_contents c2Entries c2Parse c2ThemaFS []
    "example.com/m".data c2Ov (by rfl)
  exact ⟨h.1 ⟨"x.cue".data, false, "content".data⟩ (by decide) rfl,
    h.2.1 (by decide) ⟨"lineage.cue".data, false, "lc".data⟩ (by decide) rfl⟩

end Pluggen
